import Mathlib

/-!
Verification development for the document-retrieval (RAG) pipeline of the
repository (src/rag.py).  The pipeline logic — document discovery, loading,
chunking, FAISS index build/persist/load, MMR retrieval and answer
synthesis — is shallowly embedded here over `List Char` (text), with the
external embedding and generation services modelled as function parameters.

The chunker is the `RecursiveCharacterTextSplitter` of langchain (called by
`split_documents` with `chunk_size = CHUNK_SIZE = 800`,
`chunk_overlap = CHUNK_OVERLAP = 120`, default separators
"\n\n", "\n", " ", "" and `keep_separator = True`, so merged pieces are
joined by the empty separator and each produced chunk is whitespace-stripped).
-/

namespace Rag

/-- `CHUNK_SIZE` from src/rag.py. -/
def CHUNK_SIZE : Nat := 800

/-- `CHUNK_OVERLAP` from src/rag.py. -/
def CHUNK_OVERLAP : Nat := 120

/-- `TOP_K` from src/rag.py. -/
def TOP_K : Nat := 4

/-- Python `str.isspace`-style whitespace test on the ASCII whitespace
characters that `str.strip()` removes. -/
def pyIsSpace (c : Char) : Bool :=
  c = ' ' || c = '\t' || c = '\n' || c = '\x0d' || c = '\x0b' || c = '\x0c'

/-- Python `str.strip()`: drop whitespace from both ends. -/
def pyStrip (s : List Char) : List Char :=
  ((s.dropWhile pyIsSpace).reverse.dropWhile pyIsSpace).reverse

/-- The default separator list of `RecursiveCharacterTextSplitter`:
`["\n\n", "\n", " ", ""]`. -/
def defaultSeparators : List (List Char) :=
  [['\n', '\n'], ['\n'], [' '], []]

/-- `re.search(re.escape(sep), text)`: does `sep` occur as a contiguous
substring of `text`? -/
def occursIn (sep text : List Char) : Bool :=
  text.tails.any (fun t => sep.isPrefixOf t)

/-- The separator-choice loop at the top of
`RecursiveCharacterTextSplitter._split_text`: scan the separator list; an
empty separator is chosen outright (with no remaining separators), otherwise
the first separator occurring in the text is chosen together with the
remaining separators after it.  `dflt` is `separators[-1]`, the value left
in place when no separator matches. -/
def chooseSepGo (dflt : List Char) (text : List Char) :
    List (List Char) → List Char × List (List Char)
  | [] => (dflt, [])
  | s :: rest =>
    if s = [] then ([], [])
    else if occursIn s text then (s, rest)
    else chooseSepGo dflt text rest

/-- Separator choice of `_split_text` (initial `separator = separators[-1]`,
`new_separators = []`). -/
def chooseSep (seps : List (List Char)) (text : List Char) :
    List Char × List (List Char) :=
  chooseSepGo (seps.getLastD []) text seps

/-- `_split_text_with_regex` with a non-empty separator and
`keep_separator = True`: split the text at each (leftmost, non-overlapping)
occurrence of `sep`, attaching the separator to the start of the following
piece.  `fuel` bounds the recursion; `fuel = text.length` always suffices
since each step consumes at least one character. -/
def splitKeepGo (sep : List Char) : Nat → List Char → List Char → List (List Char)
  | _, [], cur => [cur.reverse]
  | 0, text, cur => [cur.reverse ++ text]
  | fuel + 1, c :: rest, cur =>
    if sep.isPrefixOf (c :: rest) ∧ sep ≠ [] then
      cur.reverse :: splitKeepGo sep fuel ((c :: rest).drop sep.length) sep.reverse
    else
      splitKeepGo sep fuel rest (c :: cur)

/-- `_split_text_with_regex` with `keep_separator = True`: for an empty
separator the text becomes the list of its characters (`list(text)`),
otherwise the keep-separator split; empty pieces are filtered out. -/
def splitWithSep (sep text : List Char) : List (List Char) :=
  if sep = [] then text.map (fun c => [c])
  else (splitKeepGo sep text.length text []).filter (fun s => !s.isEmpty)

/-- `TextSplitter._join_docs` with the empty joining separator
(`keep_separator = True` makes `_merge_splits` join with `""`) and
`strip_whitespace = True`: concatenate, strip, and drop the result when it
strips to nothing. -/
def joinDocs (docs : List (List Char)) : Option (List Char) :=
  let text := pyStrip docs.flatten
  if text = [] then none else some text

/-- The inner `while` of `TextSplitter._merge_splits`: pop splits from the
front of the running window while the window total exceeds `CHUNK_OVERLAP`,
or while it would overflow `CHUNK_SIZE` once `lenD` (the length of the
incoming split) is added and is still non-empty.  (The Python loop indexes
`current_doc[0]` without an emptiness guard; the guard here is the pattern
match, and the empty case is unreachable because the total is the sum of the
window's lengths.) -/
def popLoop (lenD : Nat) : List (List Char) → Nat → List (List Char) × Nat
  | [], total => ([], total)
  | c :: rest, total =>
    if total > CHUNK_OVERLAP ∨ (total + lenD > CHUNK_SIZE ∧ total > 0) then
      popLoop lenD rest (total - c.length)
    else (c :: rest, total)

/-- The main loop of `TextSplitter._merge_splits` (joining separator `""`),
instrumented so that each produced chunk carries the number of characters it
retained from the previous chunk's window (`overlap_with_previous` of the
spec's data model; `0` for the first chunk of a batch).  State: remaining
splits, current window `cur`, its running total, the pending overlap value,
and the emitted chunks. -/
def mergeGoOv :
    List (List Char) → List (List Char) → Nat → Nat → List (List Char × Nat) →
    List (List Char × Nat)
  | [], cur, _, pend, docs =>
    docs ++ (match joinDocs cur with | none => [] | some t => [(t, pend)])
  | d :: rest, cur, total, pend, docs =>
    if total + d.length > CHUNK_SIZE ∧ cur ≠ [] then
      let docs1 := docs ++ (match joinDocs cur with | none => [] | some t => [(t, pend)])
      let p := popLoop d.length cur total
      mergeGoOv rest (p.1 ++ [d]) (p.2 + d.length) p.2 docs1
    else
      mergeGoOv rest (cur ++ [d]) (total + d.length) pend docs

/-- `TextSplitter._merge_splits` on a batch of small splits. -/
def mergeSplits (splits : List (List Char)) : List (List Char × Nat) :=
  mergeGoOv splits [] 0 0 []

/-- The `if _good_splits:` flush in `_split_text`: merge the accumulated
small splits, if any. -/
def mergeOut (good : List (List Char)) : List (List Char × Nat) :=
  if good.isEmpty then [] else mergeSplits good

/-- The split-processing loop of `_split_text`: accumulate splits smaller
than `CHUNK_SIZE` and merge each maximal run of them; a too-large split
flushes the run and is handled by `handleBig` (recursion into the remaining
separators, or emitted whole when none remain). -/
def splitsLoop (handleBig : List Char → List (List Char × Nat)) :
    List (List Char) → List (List Char) → List (List Char × Nat)
  | [], good => mergeOut good
  | s :: rest, good =>
    if s.length < CHUNK_SIZE then splitsLoop handleBig rest (good ++ [s])
    else mergeOut good ++ handleBig s ++ splitsLoop handleBig rest []

/-- `RecursiveCharacterTextSplitter._split_text`, recursing on the separator
list.  `fuel` bounds the recursion depth; since each recursive call uses a
strictly shorter separator list, `fuel = seps.length + 1` always suffices. -/
def splitTextF : Nat → List (List Char) → List Char → List (List Char × Nat)
  | 0, _, _ => []
  | fuel + 1, seps, text =>
    match seps with
    | [] => []
    | _ :: _ =>
      let sp := chooseSep seps text
      splitsLoop
        (fun s => if sp.2.isEmpty then [(s, 0)] else splitTextF fuel sp.2 s)
        (splitWithSep sp.1 text) []

/-- `split_text` of the splitter configured in `split_documents`
(`chunk_size = 800`, `chunk_overlap = 120`, default separators). -/
def splitText (text : List Char) : List (List Char × Nat) :=
  splitTextF (defaultSeparators.length + 1) defaultSeparators text

/-- A loaded document: source identifier (path) and page content. -/
structure Document where
  source : List Char
  content : List Char
deriving DecidableEq

/-- A chunk produced by the splitter: inherited source, text, and the number
of characters retained from the previous chunk's window. -/
structure Chunk where
  source : List Char
  text : List Char
  overlapPrev : Nat
deriving DecidableEq

/-- `split_documents` from src/rag.py: split each document's content,
emitting all chunks of one document (in order) before the next document's,
each chunk inheriting the source metadata. -/
def split_documents (docs : List Document) : List Chunk :=
  docs.flatMap (fun d => (splitText d.content).map (fun t => ⟨d.source, t.1, t.2⟩))

/-! ### File discovery and loading (`find_files`, `load_documents`) -/

/-- A filesystem path, as its components. -/
abbrev Path := List (List Char)

/-- The filesystem visible to `find_files`: the set of existing regular
files.  `path.is_file()` is membership; `path.rglob("*")` filtered by
`is_file` yields the regular files strictly below a directory. -/
structure FS where
  files : List Path

/-- `Path.is_file()`. -/
def isFile (fs : FS) (p : Path) : Bool :=
  fs.files.contains p

/-- `path.rglob("*")` restricted to regular files: every listed file
strictly below `p`. -/
def rglobFiles (fs : FS) (p : Path) : List Path :=
  fs.files.filter (fun f => decide (p <+: f ∧ f ≠ p))

/-- Python `PurePath.suffix` on a file name: the last dot-suffix, empty when
the last dot is the first character or the final character (or absent). -/
def pySuffix (name : List Char) : List Char :=
  match ((List.range name.length).filter (fun i => name.getD i ' ' = '.')).getLast? with
  | none => []
  | some i => if 0 < i ∧ i < name.length - 1 then name.drop i else []

/-- The final path component (`Path.name`). -/
def lastComponent (p : Path) : List Char :=
  p.getLastD []

/-- `p.suffix.lower()` of a path. -/
def lowerSuffix (p : Path) : List Char :=
  (pySuffix (lastComponent p)).map Char.toLower

/-- The extension allow-list `exts` of `find_files`. -/
def extsList : List (List Char) :=
  [".txt".toList, ".md".toList, ".pdf".toList, ".csv".toList]

/-- `find_files` from src/rag.py: an existing file is returned by itself
(no extension check); otherwise the recursive regular files below the path
with an allowed (case-insensitively lowered) suffix. -/
def find_files (fs : FS) (p : Path) : List Path :=
  if isFile fs p then [p]
  else (rglobFiles fs p).filter (fun f => decide (lowerSuffix f ∈ extsList))

/-- An exception raised by a document loader (message text). -/
structure LoadErr where
  msg : List Char
deriving DecidableEq

/-- The three external document loaders (`TextLoader`, `PyPDFLoader`,
`CSVLoader`), each of which may raise. -/
structure Loaders where
  textLoad : Path → Except LoadErr (List Document)
  pdfLoad : Path → Except LoadErr (List Document)
  csvLoad : Path → Except LoadErr (List Document)

/-- The dispatch on `p.suffix.lower()` inside `load_documents`'s `try`
block.  A path matching none of the handled suffixes loads nothing (the
Python loop body has no branch for it, so `docs` is unchanged). -/
def tryLoad (ld : Loaders) (p : Path) : Except LoadErr (List Document) :=
  let sfx := lowerSuffix p
  if sfx = ".txt".toList ∨ sfx = ".md".toList then ld.textLoad p
  else if sfx = ".pdf".toList then ld.pdfLoad p
  else if sfx = ".csv".toList then ld.csvLoad p
  else .ok []

/-- `load_documents` from src/rag.py: try each path in order; a successful
load extends the document list, a failing one is caught, reported as a
warning (the `[WARN]` print, modelled as the second component) and skipped,
and loading continues with the remaining paths. -/
def load_documents (ld : Loaders) : List Path → List Document × List (Path × LoadErr)
  | [] => ([], [])
  | p :: rest =>
    let r := load_documents ld rest
    match tryLoad ld p with
    | .ok ds => (ds ++ r.1, r.2)
    | .error e => (r.1, (p, e) :: r.2)

/-! ### Index store (`FAISS.from_documents`, `save_local`, `load_local`) -/

/-- An embedding vector.  The index stores exact coordinates; we embed them
as integers (the numeric embedding service is an opaque collaborator). -/
abbrev Vec := List Int

/-- A FAISS vector store: the chunks paired with their embedding vectors,
in insertion order. -/
structure Index where
  entries : List (Chunk × Vec)
deriving DecidableEq

/-- `FAISS.from_documents(chunks, embeddings)`: embed each chunk's text once
and store the pairs in input order. -/
def faissFromDocuments (embed : List Char → Vec) (chunks : List Chunk) : Index :=
  ⟨chunks.map (fun c => (c, embed c.text))⟩

/-- The persisted layout at `INDEX_PATH`: the `index.faiss` file (the raw
vectors) and the `index.pkl` file (the docstore mapping ordinals to
chunks), each possibly absent. -/
structure Storage where
  faissFile : Option (List Vec)
  pklFile : Option (List Chunk)
deriving DecidableEq

/-- First half of `FAISS.save_local`: `faiss.write_index` overwrites the
`index.faiss` file in place. -/
def writeFaiss (idx : Index) (st : Storage) : Storage :=
  { st with faissFile := some (idx.entries.map (fun e => e.2)) }

/-- Second half of `FAISS.save_local`: `pickle.dump` of the docstore
overwrites the `index.pkl` file in place. -/
def writePkl (idx : Index) (st : Storage) : Storage :=
  { st with pklFile := some (idx.entries.map (fun e => e.1)) }

/-- `FAISS.save_local`: write `index.faiss`, then `index.pkl`, both directly
into the target directory (no temporary location, no atomic rename). -/
def saveLocal (idx : Index) (st : Storage) : Storage :=
  writePkl idx (writeFaiss idx st)

/-- Failure of `FAISS.load_local` when a snapshot file is missing. -/
inductive IdxErr where
  | indexNotFound
deriving DecidableEq

/-- `FAISS.load_local`: read both files and pair the docstore entries with
the vectors by ordinal; fails when either file is absent.  No integrity
check ties the two files to the same `save_local` call. -/
def loadLocal (st : Storage) : Except IdxErr Index :=
  match st.faissFile, st.pklFile with
  | some vs, some cs => .ok ⟨cs.zip vs⟩
  | _, _ => .error .indexNotFound

/-- `REBUILD_INDEX` from src/rag.py. -/
def REBUILD_INDEX : Bool := true

/-- `build_or_load_faiss` from src/rag.py: when `rebuild` is set, build the
index from the chunks and `save_local` it; in every case `load_local` the
snapshot at `INDEX_PATH` and return the loaded store, together with the
resulting storage state. -/
def build_or_load_faiss (embed : List Char → Vec) (chunks : List Chunk)
    (rebuild : Bool) (st : Storage) : Except IdxErr Index × Storage :=
  let st1 := if rebuild then saveLocal (faissFromDocuments embed chunks) st else st
  (loadLocal st1, st1)

/-! ### Retrieval (`as_retriever(search_type="mmr", k=TOP_K)`) -/

/-- langchain's default `fetch_k` for MMR search: the number of candidates
fetched from the index before MMR selection. -/
def FETCH_K : Nat := 20

/-- Squared L2 distance computed by the `IndexFlatL2` FAISS index. -/
def sqDist (a b : Vec) : Int :=
  ((a.zip b).map (fun p => (p.1 - p.2) * (p.1 - p.2))).sum

/-- Stable insertion of an element into a key-sorted list (after any equal
keys), used to model FAISS's distance-ordered search results with ties in
insertion order. -/
def insOrd (key : α → Int) (x : α) : List α → List α
  | [] => [x]
  | y :: ys => if key x < key y then x :: y :: ys else y :: insOrd key x ys

/-- Stable sort by an integer key (insertion order preserved on ties). -/
def sortByKey (key : α → Int) (l : List α) : List α :=
  l.foldl (fun acc x => insOrd key x acc) []

/-- `index.search(query, j)` on an `IndexFlatL2` index: the `j` entries
nearest to the query in squared L2 distance (padding `-1` entries for an
index smaller than `j` are filtered out by the caller, so the result simply
truncates to the index size). -/
def searchTopK (idx : Index) (q : Vec) (j : Nat) : List (Chunk × Vec) :=
  (sortByKey (fun e => sqDist e.2 q) idx.entries).take j

/-- `np.argmax` over the running scan of `maximal_marginal_relevance`'s
selection loop: index and score of the best element so far, strict
improvement only (first maximum wins). -/
def argmaxGo : Nat → List ℚ → Nat × ℚ → Nat × ℚ
  | _, [], best => best
  | i, s :: rest, best =>
    if s > best.2 then argmaxGo (i + 1) rest (i, s) else argmaxGo (i + 1) rest best

/-- `np.argmax` on a score list (first maximum), `none` on an empty list. -/
def argmaxFirst : List ℚ → Option Nat
  | [] => none
  | s :: rest => some (argmaxGo 1 rest (0, s)).1

/-- Maximum of a score list (`max` over the similarities to the already
selected embeddings; the selected list is never empty when consulted, so
the default for `[]` is irrelevant). -/
def listMax : List ℚ → ℚ
  | [] => 0
  | x :: xs => xs.foldl max x

/-- The candidate scores of one MMR round:
`lambda * similarity_to_query[i] - (1 - lambda) * max(similarity_to_selected[i])`
for every candidate index `i` (selected indices are skipped later by the
picking scan, exactly as the Python loop's `continue` does). -/
def mmrScores (sim : Vec → Vec → ℚ) (lam : ℚ) (simToQuery : List ℚ)
    (embs : List Vec) (idxs : List Nat) : List ℚ :=
  (List.range embs.length).map (fun i =>
    lam * simToQuery.getD i 0 -
      (1 - lam) * listMax (idxs.map (fun j => sim (embs.getD i []) (embs.getD j []))))

/-- The argmax scan of one MMR round: walk the candidate scores in index
order, skipping already-selected indices, keeping the first strict maximum
(`best_score = -inf` start is the `none` state). -/
def pickBestGo (idxs : List Nat) : Nat → List ℚ → Option (Nat × ℚ) → Option (Nat × ℚ)
  | _, [], best => best
  | i, sc :: rest, best =>
    if idxs.contains i then pickBestGo idxs (i + 1) rest best
    else
      match best with
      | none => pickBestGo idxs (i + 1) rest (some (i, sc))
      | some b =>
        if sc > b.2 then pickBestGo idxs (i + 1) rest (some (i, sc))
        else pickBestGo idxs (i + 1) rest (some b)

/-- One round of the MMR `while` loop: the index chosen to add. -/
def pickBest (sim : Vec → Vec → ℚ) (lam : ℚ) (simToQuery : List ℚ)
    (embs : List Vec) (idxs : List Nat) : Option Nat :=
  (pickBestGo idxs 0 (mmrScores sim lam simToQuery embs idxs) none).map (fun b => b.1)

/-- The MMR `while` loop, running `fuel` rounds (the Python loop runs until
`len(idxs) = min(k, n)`, adding exactly one index per round, so `fuel` is
that count minus the initial pick). -/
def mmrLoop (sim : Vec → Vec → ℚ) (lam : ℚ) (simToQuery : List ℚ) (embs : List Vec) :
    Nat → List Nat → List Nat
  | 0, idxs => idxs
  | fuel + 1, idxs =>
    match pickBest sim lam simToQuery embs idxs with
    | none => idxs
    | some i => mmrLoop sim lam simToQuery embs fuel (idxs ++ [i])

/-- langchain's `maximal_marginal_relevance(query, embedding_list, lambda_mult, k)`:
empty when `min(k, len(embedding_list)) <= 0`, otherwise the most similar
candidate followed by `min(k, n) - 1` MMR rounds.  The cosine similarity
(a real-valued computation) is the explicit parameter `sim`. -/
def maximalMarginalRelevance (sim : Vec → Vec → ℚ) (lam : ℚ) (q : Vec)
    (embs : List Vec) (k : Nat) : List Nat :=
  if min k embs.length = 0 then []
  else
    let simToQuery := embs.map (fun e => sim q e)
    match argmaxFirst simToQuery with
    | none => []
    | some i0 => mmrLoop sim lam simToQuery embs (min k embs.length - 1) [i0]

/-- `FAISS.max_marginal_relevance_search(query, k, fetch_k)` given the
already-embedded query: fetch the `fetch_k` nearest entries, run MMR
selection with `lambda_mult = 0.5` over their embeddings, and return the
selected chunks in selection order. -/
def mmrSearch (sim : Vec → Vec → ℚ) (idx : Index) (qv : Vec) (k fetchK : Nat) :
    List Chunk :=
  let cands := searchTopK idx qv fetchK
  let sel := maximalMarginalRelevance sim ((1 : ℚ) / 2) qv (cands.map (fun e => e.2)) k
  sel.filterMap (fun i => (cands[i]?).map (fun e => e.1))

/-! ### Answer synthesis (`ask_question`) -/

/-- Failure of the generation service (`ChatGroq` call). -/
structure GenErr where
  msg : List Char
deriving DecidableEq

/-- The fixed prompt template of `ask_question`, up to the context hole. -/
def promptHead : List Char :=
  "Answer the following question based only on the provided context:\n\nContext:\n".toList

/-- The template between the context hole and the question hole. -/
def promptMid : List Char :=
  "\n\nQuestion: ".toList

/-- The document separator of `create_stuff_documents_chain` ("\n\n"). -/
def docSep : List Char := "\n\n".toList

/-- The stuffed prompt: retrieved chunk texts joined by the document
separator, substituted into the template with the question. -/
def buildPrompt (docs : List Chunk) (question : List Char) : List Char :=
  promptHead ++ List.intercalate docSep (docs.map (fun c => c.text)) ++ promptMid ++ question

/-- `ask_question` from src/rag.py: retrieve `TOP_K` chunks with the `mmr`
retriever (`SEARCH_TYPE = "mmr"`), stuff them into the prompt, and invoke
the generation service once with it.  The second component records every
prompt sent to the generation service (for the single-attempt property);
the service's result — success or failure, even an empty answer — is
returned to the caller unchanged. -/
def ask_question (sim : Vec → Vec → ℚ) (embed : List Char → Vec)
    (generate : List Char → Except GenErr (List Char)) (vs : Index)
    (question : List Char) : Except GenErr (List Char) × List (List Char) :=
  let docs := mmrSearch sim vs (embed question) TOP_K FETCH_K
  let prompt := buildPrompt docs question
  (generate prompt, [prompt])

/-! ### The `__main__` pipeline -/

/-- `DOCS_PATH` from src/rag.py. -/
def DOCS_PATH : Path := ["my_docs".toList]

/-- `QUESTION` from src/rag.py. -/
def QUESTION : List Char :=
  "Give me a 2-line summary of the docs and cite sources.".toList

/-- The failure exits of the `__main__` block (each a `SystemExit` in the
source) plus the propagated index-load and generation failures. -/
inductive MainErr where
  | noFilesFound
  | noDocsLoaded
  | noChunksCreated
  | indexLoadFailed
  | generationFailed (e : GenErr)
deriving DecidableEq

/-- The `SystemExit`s of the `__main__` block that report an empty input at
some stage (the spec's `EmptyInputError` taxonomy class). -/
def isEmptyInputErr : MainErr → Bool
  | .noFilesFound => true
  | .noDocsLoaded => true
  | .noChunksCreated => true
  | _ => false

/-- The `__main__` block of src/rag.py: find files, load documents, split
into chunks — failing with the respective `SystemExit` when any stage comes
up empty — then build/persist/load the index (with `REBUILD_INDEX`) and ask
the configured question.  The final storage state is returned alongside. -/
def mainPipeline (fs : FS) (ld : Loaders) (embed : List Char → Vec)
    (sim : Vec → Vec → ℚ) (generate : List Char → Except GenErr (List Char))
    (st : Storage) : Except MainErr (List Char) × Storage :=
  let files := find_files fs DOCS_PATH
  if files.isEmpty then (.error .noFilesFound, st)
  else
    let docs := (load_documents ld files).1
    if docs.isEmpty then (.error .noDocsLoaded, st)
    else
      let chunks := split_documents docs
      if chunks.isEmpty then (.error .noChunksCreated, st)
      else
        let r := build_or_load_faiss embed chunks REBUILD_INDEX st
        match r.1 with
        | .error _ => (.error .indexLoadFailed, r.2)
        | .ok vs =>
          match (ask_question sim embed generate vs QUESTION).1 with
          | .error e => (.error (.generationFailed e), r.2)
          | .ok ans => (.ok ans, r.2)

deriving instance DecidableEq for Except

/-! ### Auxiliary definitions used by the verification -/

/-- The invariant of the separator lists `_split_text` is called with: the
list is non-empty and ends with the empty separator (true of the default
list and preserved by the recursion). -/
def sepsInv (seps : List (List Char)) : Prop :=
  seps ≠ [] ∧ seps.getLast? = some []

/-- Total length of a list of splits. -/
def sumLens (l : List (List Char)) : Nat := (l.map List.length).sum

/-- The spec's round-trip reconstruction of a document from its chunk
texts: keep the first chunk whole and strip the first `CHUNK_OVERLAP`
characters from each later chunk.  (Stated from the spec's words, to be
compared against what the source splitter actually produces.) -/
def specReconstruct : List (List Char) → List Char
  | [] => []
  | c :: cs => c ++ (cs.map (fun t => t.drop CHUNK_OVERLAP)).flatten

/-- One full build-persist-load-query run on a starting storage state:
`build_or_load_faiss` with the rebuild flag set, followed by
`ask_question` on the index it returns (`none` if the load step failed). -/
def buildThenQuery (sim : Vec → Vec → ℚ) (embed : List Char → Vec)
    (generate : List Char → Except GenErr (List Char)) (docs : List Document)
    (q : List Char) (st : Storage) :
    Option (Except GenErr (List Char) × List (List Char)) :=
  match build_or_load_faiss embed (split_documents docs) true st with
  | (.ok vs, _) => some (ask_question sim embed generate vs q)
  | (.error _, _) => none

/-- A trivial similarity function (the length claims below hold for every
similarity function; concrete instances use this one). -/
def simZero : Vec → Vec → ℚ := fun _ _ => 0

/-- A 21-entry index used to exhibit the `fetch_k` truncation. -/
def idx21 : Index :=
  ⟨(List.range 21).map (fun i => (⟨['s'], ['c'], 0⟩, [(i : Int)]))⟩

/-- A 2-entry index for small witnesses. -/
def idx2 : Index :=
  ⟨[(⟨['s'], ['a'], 0⟩, [0]), (⟨['s'], ['b'], 0⟩, [1])]⟩

/-- One-entry indexes over distinct chunks/vectors, for the persistence
counterexample. -/
def idxA : Index := ⟨[(⟨['s'], ['a'], 0⟩, [0])]⟩

/-- Second one-entry index (different chunk text and vector). -/
def idxB : Index := ⟨[(⟨['s'], ['b'], 0⟩, [1])]⟩

/-- The empty storage location (no snapshot yet). -/
def stEmpty : Storage := ⟨none, none⟩

/-- A tiny filesystem: a directory `my_docs` holding one `.txt` file and
one `.py` file, one loose `.xyz` file, and a loose `.pdf` file. -/
def fsExample : FS :=
  ⟨[["my_docs".toList, "notes.TXT".toList],
    ["my_docs".toList, "tool.py".toList],
    ["weird.xyz".toList],
    ["paper.pdf".toList]]⟩

/-- A two-character document whose content ends in a space (the splitter
strips it, defeating exact reconstruction). -/
def docA : Document := ⟨"d".toList, ['a', ' ']⟩

/-- Loaders for the witnesses: the text loader yields one whitespace-only
document, the other loaders always fail. -/
def ldWhitespace : Loaders :=
  ⟨fun p => .ok [⟨lastComponent p, "  ".toList⟩],
   fun _ => .error ⟨"pdf".toList⟩,
   fun _ => .error ⟨"csv".toList⟩⟩

/-! ## Lemmas about stripping -/

theorem substr_refl (l : List Char) : l <:+: l :=
  ⟨[], [], by simp⟩

theorem pyStrip_substr (s : List Char) : pyStrip s <:+: s := by
  unfold pyStrip
  have h1 : s.dropWhile pyIsSpace <:+ s := List.dropWhile_suffix pyIsSpace
  have h2 : ((s.dropWhile pyIsSpace).reverse.dropWhile pyIsSpace).reverse <+:
      s.dropWhile pyIsSpace := by
    rw [← List.reverse_suffix, List.reverse_reverse]
    exact List.dropWhile_suffix pyIsSpace
  exact (h2.isInfix).trans h1.isInfix

theorem pyStrip_length_le (s : List Char) : (pyStrip s).length ≤ s.length :=
  (pyStrip_substr s).sublist.length_le

theorem pyStrip_eq_nil_iff (s : List Char) :
    pyStrip s = [] ↔ ∀ c ∈ s, pyIsSpace c = true := by
  constructor
  · intro h c hc
    unfold pyStrip at h
    rw [List.reverse_eq_nil_iff, List.dropWhile_eq_nil_iff] at h
    have h2 : ∀ x ∈ s.dropWhile pyIsSpace, pyIsSpace x = true := by
      intro x hx
      exact h x (List.mem_reverse.mpr hx)
    have hsplit : s.takeWhile pyIsSpace ++ s.dropWhile pyIsSpace = s :=
      List.takeWhile_append_dropWhile pyIsSpace s
    rw [← hsplit] at hc
    rcases List.mem_append.mp hc with h3 | h3
    · exact List.mem_takeWhile_imp h3
    · exact h2 c h3
  · intro h
    unfold pyStrip
    have h1 : s.dropWhile pyIsSpace = [] := List.dropWhile_eq_nil_iff.mpr h
    rw [h1]
    rfl

/-! ## Lemmas about the keep-separator split -/

theorem splitKeepGo_flatten (sep : List Char) :
    ∀ fuel text cur, (splitKeepGo sep fuel text cur).flatten = cur.reverse ++ text := by
  intro fuel
  induction fuel with
  | zero =>
    intro text cur
    cases text with
    | nil => simp [splitKeepGo]
    | cons c rest => simp [splitKeepGo]
  | succ fuel ih =>
    intro text cur
    cases text with
    | nil => simp [splitKeepGo]
    | cons c rest =>
      by_cases h : sep.isPrefixOf (c :: rest) ∧ sep ≠ []
      · rw [splitKeepGo, if_pos h]
        rcases List.isPrefixOf_iff_prefix.mp h.1 with ⟨t, ht⟩
        have hdrop : (c :: rest).drop sep.length = t := by
          rw [← ht, List.drop_left]
        simp only [List.flatten_cons, ih, List.reverse_reverse, hdrop]
        rw [← List.append_assoc, ← ht]
        rw [List.append_assoc]
      · rw [splitKeepGo, if_neg h]
        rw [ih]
        simp

theorem flatten_filter_nonempty (l : List (List Char)) :
    (l.filter (fun s => !s.isEmpty)).flatten = l.flatten := by
  induction l with
  | nil => rfl
  | cons s rest ih =>
    by_cases h : s = []
    · subst h
      simpa using ih
    · have : (!s.isEmpty) = true := by
        simpa [List.isEmpty_iff] using h
      simp [List.filter_cons, this, ih]

theorem flatten_map_singleton (text : List Char) :
    (text.map (fun c => [c])).flatten = text := by
  induction text with
  | nil => rfl
  | cons c rest ih => simp [ih]

theorem splitWithSep_flatten (sep text : List Char) :
    (splitWithSep sep text).flatten = text := by
  unfold splitWithSep
  by_cases h : sep = []
  · rw [if_pos h]
    exact flatten_map_singleton text
  · rw [if_neg h, flatten_filter_nonempty, splitKeepGo_flatten]
    rfl

theorem mem_flatten_substr {l : List Char} {L : List (List Char)} (h : l ∈ L) :
    l <:+: L.flatten := by
  rcases List.append_of_mem h with ⟨s, t, rfl⟩
  exact ⟨s.flatten, t.flatten, by simp⟩

theorem splitWithSep_mem_substr {sep text s : List Char}
    (h : s ∈ splitWithSep sep text) : s <:+: text :=
  splitWithSep_flatten sep text ▸ mem_flatten_substr h

theorem splitWithSep_mem_space {sep text s : List Char}
    (hw : ∀ c ∈ text, pyIsSpace c = true) (h : s ∈ splitWithSep sep text) :
    ∀ c ∈ s, pyIsSpace c = true := by
  intro c hc
  exact hw c ((splitWithSep_mem_substr h).sublist.subset hc)

theorem splitWithSep_nil_mem_len {text s : List Char}
    (h : s ∈ splitWithSep [] text) : s.length = 1 := by
  unfold splitWithSep at h
  rw [if_pos rfl] at h
  rcases List.mem_map.mp h with ⟨c, _, rfl⟩
  rfl

/-! ## Lemmas about separator choice -/

theorem sepsInv_default : sepsInv defaultSeparators := by
  constructor <;> decide

theorem sepsInv_tail {s : List Char} {rest : List (List Char)}
    (h : sepsInv (s :: rest)) (hs : s ≠ []) : sepsInv rest := by
  cases rest with
  | nil =>
    exfalso
    apply hs
    have := h.2
    simpa using this
  | cons r rs =>
    refine ⟨by simp, ?_⟩
    have := h.2
    rwa [List.getLast?_cons_cons] at this

theorem chooseSepGo_spec (text : List Char) :
    ∀ (seps : List (List Char)) (dflt : List Char), sepsInv seps →
      chooseSepGo dflt text seps = ([], []) ∨
        ((chooseSepGo dflt text seps).1 ≠ [] ∧ sepsInv (chooseSepGo dflt text seps).2) := by
  intro seps
  induction seps with
  | nil =>
    intro dflt h
    exact absurd rfl h.1
  | cons s rest ih =>
    intro dflt h
    by_cases hs : s = []
    · left
      simp [chooseSepGo, hs]
    · by_cases ho : occursIn s text = true
      · right
        simp only [chooseSepGo, if_neg hs, if_pos ho]
        exact ⟨hs, sepsInv_tail h hs⟩
      · have hrw : chooseSepGo dflt text (s :: rest) = chooseSepGo dflt text rest := by
          simp [chooseSepGo, hs, ho]
        rw [hrw]
        exact ih dflt (sepsInv_tail h hs)

theorem chooseSep_spec {seps : List (List Char)} (text : List Char) (h : sepsInv seps) :
    chooseSep seps text = ([], []) ∨
      ((chooseSep seps text).1 ≠ [] ∧ sepsInv (chooseSep seps text).2) :=
  chooseSepGo_spec text seps (seps.getLastD []) h

/-! ## Lemmas about the merge loop -/

theorem sumLens_cons (c : List Char) (rest : List (List Char)) :
    sumLens (c :: rest) = c.length + sumLens rest := by
  simp [sumLens]

theorem sumLens_append (a b : List (List Char)) :
    sumLens (a ++ b) = sumLens a + sumLens b := by
  simp [sumLens]

theorem sumLens_eq_length_flatten (l : List (List Char)) :
    sumLens l = l.flatten.length := by
  induction l with
  | nil => rfl
  | cons c rest ih => simp [sumLens_cons, ih]

theorem popLoop_suffix (lenD : Nat) :
    ∀ cur total, (popLoop lenD cur total).1 <:+ cur := by
  intro cur
  induction cur with
  | nil => intro total; simp [popLoop]
  | cons c rest ih =>
    intro total
    by_cases h : total > CHUNK_OVERLAP ∨ (total + lenD > CHUNK_SIZE ∧ total > 0)
    · rw [popLoop, if_pos h]
      exact (ih (total - c.length)).trans (List.suffix_cons c rest)
    · rw [popLoop, if_neg h]

theorem popLoop_total (lenD : Nat) :
    ∀ cur total, total = sumLens cur →
      (popLoop lenD cur total).2 = sumLens (popLoop lenD cur total).1 := by
  intro cur
  induction cur with
  | nil =>
    intro total ht
    simpa [popLoop] using ht
  | cons c rest ih =>
    intro total ht
    by_cases h : total > CHUNK_OVERLAP ∨ (total + lenD > CHUNK_SIZE ∧ total > 0)
    · rw [popLoop, if_pos h]
      apply ih
      rw [ht, sumLens_cons]
      simp
    · rw [popLoop, if_neg h]
      exact ht

theorem popLoop_overlap (lenD : Nat) :
    ∀ cur total, total = sumLens cur → (popLoop lenD cur total).2 ≤ CHUNK_OVERLAP := by
  intro cur
  induction cur with
  | nil =>
    intro total ht
    simp only [popLoop]
    rw [ht]
    simp [sumLens, CHUNK_OVERLAP]
  | cons c rest ih =>
    intro total ht
    by_cases h : total > CHUNK_OVERLAP ∨ (total + lenD > CHUNK_SIZE ∧ total > 0)
    · rw [popLoop, if_pos h]
      apply ih
      rw [ht, sumLens_cons]
      simp
    · rw [popLoop, if_neg h]
      push_neg at h
      exact h.1

theorem popLoop_fits (lenD : Nat) (hD : lenD < CHUNK_SIZE) :
    ∀ cur total, total = sumLens cur →
      (popLoop lenD cur total).2 + lenD ≤ CHUNK_SIZE := by
  intro cur
  induction cur with
  | nil =>
    intro total ht
    simp only [popLoop]
    rw [ht]
    simp only [sumLens, List.map_nil, List.sum_nil, Nat.zero_add]
    exact Nat.le_of_lt hD
  | cons c rest ih =>
    intro total ht
    by_cases h : total > CHUNK_OVERLAP ∨ (total + lenD > CHUNK_SIZE ∧ total > 0)
    · rw [popLoop, if_pos h]
      apply ih
      rw [ht, sumLens_cons]
      simp
    · rw [popLoop, if_neg h]
      push_neg at h
      rcases Nat.lt_or_ge CHUNK_SIZE (total + lenD) with hgt | hle
      · have := h.2 hgt
        omega
      · exact hle

theorem joinDocs_eq_some {cur : List (List Char)} {t : List Char}
    (h : joinDocs cur = some t) : t = pyStrip cur.flatten := by
  unfold joinDocs at h
  by_cases h0 : pyStrip cur.flatten = []
  · simp [h0] at h
  · simp [h0] at h
    exact h.symm

theorem joinDocs_space {cur : List (List Char)}
    (h : ∀ s ∈ cur, ∀ c ∈ s, pyIsSpace c = true) : joinDocs cur = none := by
  have hall : ∀ c ∈ cur.flatten, pyIsSpace c = true := by
    intro c hc
    rcases List.mem_flatten.mp hc with ⟨l, hl, hcl⟩
    exact h l hl c hcl
  unfold joinDocs
  simp [(pyStrip_eq_nil_iff _).mpr hall]

theorem mergeGoOv_space :
    ∀ (rest cur : List (List Char)) (total pend : Nat) (docs : List (List Char × Nat)),
      (∀ s ∈ rest, ∀ c ∈ s, pyIsSpace c = true) →
      (∀ s ∈ cur, ∀ c ∈ s, pyIsSpace c = true) →
      mergeGoOv rest cur total pend docs = docs := by
  intro rest
  induction rest with
  | nil =>
    intro cur total pend docs _ hcur
    simp [mergeGoOv, joinDocs_space hcur]
  | cons d rest ih =>
    intro cur total pend docs hrest hcur
    have hd : ∀ c ∈ d, pyIsSpace c = true := hrest d (by simp)
    have hrest' : ∀ s ∈ rest, ∀ c ∈ s, pyIsSpace c = true := by
      intro s hs
      exact hrest s (by simp [hs])
    by_cases h : total + d.length > CHUNK_SIZE ∧ cur ≠ []
    · rw [mergeGoOv, if_pos h]
      simp only [joinDocs_space hcur, List.append_nil]
      apply ih
      · exact hrest'
      · intro s hs
        rcases List.mem_append.mp hs with hs1 | hs1
        · exact hcur s ((popLoop_suffix d.length cur total).sublist.subset hs1)
        · simp at hs1
          subst hs1
          exact hd
    · rw [mergeGoOv, if_neg h]
      apply ih
      · exact hrest'
      · intro s hs
        rcases List.mem_append.mp hs with hs1 | hs1
        · exact hcur s hs1
        · simp at hs1
          subst hs1
          exact hd

theorem joinDocs_len {cur : List (List Char)} {t : List Char}
    (h : joinDocs cur = some t) : t.length ≤ sumLens cur := by
  rw [joinDocs_eq_some h, sumLens_eq_length_flatten]
  exact pyStrip_length_le _

theorem mergeGoOv_len :
    ∀ (rest cur : List (List Char)) (total pend : Nat) (docs : List (List Char × Nat)),
      (∀ s ∈ rest, s.length < CHUNK_SIZE) →
      total = sumLens cur →
      total ≤ CHUNK_SIZE →
      (∀ c ∈ docs, c.1.length ≤ CHUNK_SIZE) →
      ∀ c ∈ mergeGoOv rest cur total pend docs, c.1.length ≤ CHUNK_SIZE := by
  intro rest
  induction rest with
  | nil =>
    intro cur total pend docs _ htot hbound hdocs c hc
    rw [mergeGoOv] at hc
    rcases hj : joinDocs cur with _ | t
    · rw [hj] at hc
      simp at hc
      exact hdocs c hc
    · rw [hj] at hc
      rcases List.mem_append.mp hc with h1 | h1
      · exact hdocs c h1
      · simp at h1
        subst h1
        calc t.length ≤ sumLens cur := joinDocs_len hj
          _ = total := htot.symm
          _ ≤ CHUNK_SIZE := hbound
  | cons d rest ih =>
    intro cur total pend docs hrest htot hbound hdocs
    have hd : d.length < CHUNK_SIZE := hrest d (by simp)
    have hrest' : ∀ s ∈ rest, s.length < CHUNK_SIZE := by
      intro s hs
      exact hrest s (by simp [hs])
    by_cases h : total + d.length > CHUNK_SIZE ∧ cur ≠ []
    · rw [mergeGoOv, if_pos h]
      intro c hc
      refine ih _ _ _ _ hrest' ?_ ?_ ?_ c hc
      · rw [sumLens_append, ← popLoop_total d.length cur total htot]
        simp [sumLens_cons, sumLens]
      · exact popLoop_fits d.length hd cur total htot
      · intro c2 hc2
        rcases List.mem_append.mp hc2 with h1 | h1
        · exact hdocs c2 h1
        · rcases hj : joinDocs cur with _ | t
          · rw [hj] at h1
            simp at h1
          · rw [hj] at h1
            simp at h1
            rw [h1]
            calc t.length ≤ sumLens cur := joinDocs_len hj
              _ = total := htot.symm
              _ ≤ CHUNK_SIZE := hbound
    · rw [mergeGoOv, if_neg h]
      intro c hc
      refine ih _ _ _ _ hrest' ?_ ?_ hdocs c hc
      · rw [sumLens_append, htot]
        simp [sumLens_cons, sumLens]
      · rcases Decidable.not_and_iff_or_not.mp h with h1 | h1
        · omega
        · have hcur : cur = [] := by
            by_contra hne
            exact h1 hne
          subst hcur
          have : total = 0 := by
            rw [htot]
            rfl
          omega

theorem mergeGoOv_ov :
    ∀ (rest cur : List (List Char)) (total pend : Nat) (docs : List (List Char × Nat)),
      total = sumLens cur →
      pend ≤ CHUNK_OVERLAP →
      (∀ c ∈ docs, c.2 ≤ CHUNK_OVERLAP) →
      ∀ c ∈ mergeGoOv rest cur total pend docs, c.2 ≤ CHUNK_OVERLAP := by
  intro rest
  induction rest with
  | nil =>
    intro cur total pend docs _ hpend hdocs c hc
    rw [mergeGoOv] at hc
    rcases hj : joinDocs cur with _ | t
    · rw [hj] at hc
      simp at hc
      exact hdocs c hc
    · rw [hj] at hc
      rcases List.mem_append.mp hc with h1 | h1
      · exact hdocs c h1
      · simp at h1
        subst h1
        exact hpend
  | cons d rest ih =>
    intro cur total pend docs htot hpend hdocs
    by_cases h : total + d.length > CHUNK_SIZE ∧ cur ≠ []
    · rw [mergeGoOv, if_pos h]
      intro c hc
      refine ih _ _ _ _ ?_ ?_ ?_ c hc
      · rw [sumLens_append, ← popLoop_total d.length cur total htot]
        simp [sumLens_cons, sumLens]
      · exact popLoop_overlap d.length cur total htot
      · intro c2 hc2
        rcases List.mem_append.mp hc2 with h1 | h1
        · exact hdocs c2 h1
        · rcases hj : joinDocs cur with _ | t
          · rw [hj] at h1
            simp at h1
          · rw [hj] at h1
            simp at h1
            rw [h1]
            exact hpend
    · rw [mergeGoOv, if_neg h]
      intro c hc
      refine ih _ _ _ _ ?_ hpend hdocs c hc
      rw [sumLens_append, htot]
      simp [sumLens_cons, sumLens]

theorem mergeGoOv_substr (W : List Char) :
    ∀ (rest cur : List (List Char)) (total pend : Nat) (docs : List (List Char × Nat)),
      (cur.flatten ++ rest.flatten) <:+: W →
      (∀ c ∈ docs, c.1 <:+: W) →
      ∀ c ∈ mergeGoOv rest cur total pend docs, c.1 <:+: W := by
  intro rest
  induction rest with
  | nil =>
    intro cur total pend docs hinv hdocs c hc
    rw [mergeGoOv] at hc
    rcases hj : joinDocs cur with _ | t
    · rw [hj] at hc
      simp at hc
      exact hdocs c hc
    · rw [hj] at hc
      rcases List.mem_append.mp hc with h1 | h1
      · exact hdocs c h1
      · simp at h1
        subst h1
        rw [joinDocs_eq_some hj]
        have h2 : cur.flatten <:+: W := by
          simpa using hinv
        exact (pyStrip_substr _).trans h2
  | cons d rest ih =>
    intro cur total pend docs hinv hdocs
    have hcurW : cur.flatten <:+: W :=
      (List.IsPrefix.isInfix ⟨_, rfl⟩).trans hinv
    by_cases h : total + d.length > CHUNK_SIZE ∧ cur ≠ []
    · rw [mergeGoOv, if_pos h]
      intro c hc
      refine ih _ _ _ _ ?_ ?_ c hc
      · obtain ⟨u, hu⟩ := popLoop_suffix d.length cur total
        refine List.IsInfix.trans ?_ hinv
        refine List.IsSuffix.isInfix ⟨u.flatten, ?_⟩
        calc u.flatten ++ (((popLoop d.length cur total).1 ++ [d]).flatten ++ rest.flatten)
            = (u ++ (popLoop d.length cur total).1).flatten ++ (d :: rest).flatten := by
              simp [List.flatten_append, List.flatten_cons, List.append_assoc]
          _ = cur.flatten ++ (d :: rest).flatten := by rw [hu]
      · intro c2 hc2
        rcases List.mem_append.mp hc2 with h1 | h1
        · exact hdocs c2 h1
        · rcases hj : joinDocs cur with _ | t
          · rw [hj] at h1
            simp at h1
          · rw [hj] at h1
            simp at h1
            rw [h1, joinDocs_eq_some hj]
            exact (pyStrip_substr _).trans hcurW
    · rw [mergeGoOv, if_neg h]
      intro c hc
      refine ih _ _ _ _ ?_ hdocs c hc
      have : ((cur ++ [d]).flatten ++ rest.flatten) = cur.flatten ++ (d :: rest).flatten := by
        simp
      rw [this]
      exact hinv

/-! ## Merge-batch corollaries and the splits loop -/

theorem mergeOut_space {good : List (List Char)}
    (h : ∀ g ∈ good, ∀ c ∈ g, pyIsSpace c = true) : mergeOut good = [] := by
  unfold mergeOut mergeSplits
  by_cases he : good.isEmpty
  · rw [if_pos he]
  · rw [if_neg he]
    exact mergeGoOv_space good [] 0 0 [] h (by simp)

theorem mergeOut_len {good : List (List Char)}
    (h : ∀ g ∈ good, g.length < CHUNK_SIZE) :
    ∀ c ∈ mergeOut good, c.1.length ≤ CHUNK_SIZE := by
  unfold mergeOut mergeSplits
  by_cases he : good.isEmpty
  · rw [if_pos he]
    simp
  · rw [if_neg he]
    exact mergeGoOv_len good [] 0 0 [] h rfl (by simp [CHUNK_SIZE]) (by simp)

theorem mergeOut_ov (good : List (List Char)) :
    ∀ c ∈ mergeOut good, c.2 ≤ CHUNK_OVERLAP := by
  unfold mergeOut mergeSplits
  by_cases he : good.isEmpty
  · rw [if_pos he]
    simp
  · rw [if_neg he]
    exact mergeGoOv_ov good [] 0 0 [] rfl (by simp) (by simp)

theorem mergeOut_substr {good : List (List Char)} {W : List Char}
    (h : good.flatten <:+: W) : ∀ c ∈ mergeOut good, c.1 <:+: W := by
  unfold mergeOut mergeSplits
  by_cases he : good.isEmpty
  · rw [if_pos he]
    simp
  · rw [if_neg he]
    exact mergeGoOv_substr W good [] 0 0 [] (by simpa using h) (by simp)

theorem splitsLoop_forall {P : List Char × Nat → Prop} {Q : List Char → Prop}
    (handleBig : List Char → List (List Char × Nat))
    (HM : ∀ run : List (List Char), (∀ g ∈ run, Q g) → ∀ c ∈ mergeOut run, P c) :
    ∀ (splits good : List (List Char)),
      (∀ g ∈ good, Q g) →
      (∀ s ∈ splits, s.length < CHUNK_SIZE → Q s) →
      (∀ s ∈ splits, ¬ s.length < CHUNK_SIZE → ∀ c ∈ handleBig s, P c) →
      ∀ c ∈ splitsLoop handleBig splits good, P c := by
  intro splits
  induction splits with
  | nil =>
    intro good hQ _ _ c hc
    rw [splitsLoop] at hc
    exact HM good hQ c hc
  | cons s rest ih =>
    intro good hQ hS hB
    have hS' : ∀ x ∈ rest, x.length < CHUNK_SIZE → Q x := by
      intro x hx
      exact hS x (by simp [hx])
    have hB' : ∀ x ∈ rest, ¬ x.length < CHUNK_SIZE → ∀ c ∈ handleBig x, P c := by
      intro x hx
      exact hB x (by simp [hx])
    by_cases h : s.length < CHUNK_SIZE
    · rw [splitsLoop, if_pos h]
      intro c hc
      refine ih _ ?_ hS' hB' c hc
      intro g hg
      rcases List.mem_append.mp hg with h1 | h1
      · exact hQ g h1
      · simp at h1
        subst h1
        exact hS g (by simp) h
    · rw [splitsLoop, if_neg h]
      intro c hc
      rcases List.mem_append.mp hc with h1 | h1
      · rcases List.mem_append.mp h1 with h2 | h2
        · exact HM good hQ c h2
        · exact hB s (by simp) h c h2
      · refine ih _ (by simp) hS' hB' c h1

theorem splitsLoop_substr {W : List Char}
    (handleBig : List Char → List (List Char × Nat)) :
    ∀ (splits good : List (List Char)),
      (good.flatten ++ splits.flatten) <:+: W →
      (∀ s ∈ splits, ¬ s.length < CHUNK_SIZE → ∀ c ∈ handleBig s, c.1 <:+: s) →
      ∀ c ∈ splitsLoop handleBig splits good, c.1 <:+: W := by
  intro splits
  induction splits with
  | nil =>
    intro good hinv _ c hc
    rw [splitsLoop] at hc
    refine mergeOut_substr ?_ c hc
    simpa using hinv
  | cons s rest ih =>
    intro good hinv hB
    have hB' : ∀ x ∈ rest, ¬ x.length < CHUNK_SIZE → ∀ c ∈ handleBig x, c.1 <:+: x := by
      intro x hx
      exact hB x (by simp [hx])
    have hsW : s <:+: W := by
      refine (List.IsInfix.trans ?_ hinv)
      refine ⟨good.flatten, rest.flatten, ?_⟩
      simp
    have hrest : ([] ++ rest.flatten : List Char) <:+: W := by
      simp only [List.nil_append]
      refine List.IsInfix.trans ?_ hinv
      refine List.IsSuffix.isInfix ⟨good.flatten ++ s, ?_⟩
      simp
    by_cases h : s.length < CHUNK_SIZE
    · rw [splitsLoop, if_pos h]
      intro c hc
      refine ih _ ?_ hB' c hc
      have : ((good ++ [s]).flatten ++ rest.flatten) = good.flatten ++ (s :: rest).flatten := by
        simp
      rw [this]
      exact hinv
    · rw [splitsLoop, if_neg h]
      intro c hc
      rcases List.mem_append.mp hc with h1 | h1
      · rcases List.mem_append.mp h1 with h2 | h2
        · refine mergeOut_substr ?_ c h2
          exact (List.IsPrefix.isInfix ⟨_, rfl⟩).trans hinv
        · exact (hB s (by simp) h c h2).trans hsW
      · exact ih [] hrest hB' c h1

/-! ## Top-level splitter properties -/

theorem splitTextF_ov :
    ∀ (fuel : Nat) (seps : List (List Char)) (text : List Char),
      ∀ c ∈ splitTextF fuel seps text, c.2 ≤ CHUNK_OVERLAP := by
  intro fuel
  induction fuel with
  | zero =>
    intro seps text c hc
    simp [splitTextF] at hc
  | succ fuel ih =>
    intro seps text c hc
    cases seps with
    | nil => simp [splitTextF] at hc
    | cons s0 rest0 =>
      rw [splitTextF] at hc
      refine splitsLoop_forall (P := fun c => c.2 ≤ CHUNK_OVERLAP) (Q := fun _ => True)
        _ ?_ _ _ (by simp) (by simp) ?_ c hc
      · intro run _
        exact mergeOut_ov run
      · intro s _ _ c2 hc2
        by_cases he : (chooseSep (s0 :: rest0) text).2.isEmpty
        · rw [if_pos he] at hc2
          simp at hc2
          rw [hc2]
          exact Nat.zero_le _
        · rw [if_neg he] at hc2
          exact ih _ _ c2 hc2

theorem splitTextF_substr :
    ∀ (fuel : Nat) (seps : List (List Char)) (text : List Char),
      ∀ c ∈ splitTextF fuel seps text, c.1 <:+: text := by
  intro fuel
  induction fuel with
  | zero =>
    intro seps text c hc
    simp [splitTextF] at hc
  | succ fuel ih =>
    intro seps text c hc
    cases seps with
    | nil => simp [splitTextF] at hc
    | cons s0 rest0 =>
      rw [splitTextF] at hc
      refine splitsLoop_substr _ _ _ ?_ ?_ c hc
      · simp only [List.flatten_nil, List.nil_append, splitWithSep_flatten]
        exact substr_refl _
      · intro s _ _ c2 hc2
        by_cases he : (chooseSep (s0 :: rest0) text).2.isEmpty
        · rw [if_pos he] at hc2
          simp at hc2
          subst hc2
          exact substr_refl _
        · rw [if_neg he] at hc2
          exact ih _ _ c2 hc2

theorem splitTextF_len :
    ∀ (fuel : Nat) (seps : List (List Char)) (text : List Char), sepsInv seps →
      ∀ c ∈ splitTextF fuel seps text, c.1.length ≤ CHUNK_SIZE := by
  intro fuel
  induction fuel with
  | zero =>
    intro seps text _ c hc
    simp [splitTextF] at hc
  | succ fuel ih =>
    intro seps text hinv c hc
    cases seps with
    | nil => simp [splitTextF] at hc
    | cons s0 rest0 =>
      rw [splitTextF] at hc
      rcases chooseSep_spec text hinv with hcs | ⟨hne, hinv2⟩
      · rw [hcs] at hc
        refine splitsLoop_forall (P := fun c => c.1.length ≤ CHUNK_SIZE)
          (Q := fun g => g.length < CHUNK_SIZE) _ ?_ _ _
          (by simp) (fun s _ hq => hq) ?_ c hc
        · intro run hrun
          exact mergeOut_len hrun
        · intro s hs hbig c2 hc2
          exfalso
          apply hbig
          rw [splitWithSep_nil_mem_len hs]
          decide
      · refine splitsLoop_forall (P := fun c => c.1.length ≤ CHUNK_SIZE)
          (Q := fun g => g.length < CHUNK_SIZE) _ ?_ _ _
          (by simp) (fun s _ hq => hq) ?_ c hc
        · intro run hrun
          exact mergeOut_len hrun
        · intro s _ _ c2 hc2
          have he : (chooseSep (s0 :: rest0) text).2.isEmpty = false := by
            simpa [List.isEmpty_iff] using hinv2.1
          rw [he] at hc2
          simp at hc2
          exact ih _ _ hinv2 c2 hc2

theorem splitTextF_space :
    ∀ (fuel : Nat) (seps : List (List Char)) (text : List Char), sepsInv seps →
      (∀ c ∈ text, pyIsSpace c = true) → splitTextF fuel seps text = [] := by
  intro fuel
  induction fuel with
  | zero =>
    intro seps text _ _
    simp [splitTextF]
  | succ fuel ih =>
    intro seps text hinv hsp
    cases seps with
    | nil => simp [splitTextF]
    | cons s0 rest0 =>
      rw [splitTextF]
      rw [List.eq_nil_iff_forall_not_mem]
      intro c hc
      rcases chooseSep_spec text hinv with hcs | ⟨hne, hinv2⟩
      · rw [hcs] at hc
        refine splitsLoop_forall (P := fun _ => False)
          (Q := fun g => ∀ x ∈ g, pyIsSpace x = true) _ ?_ _ _
          (by simp) (fun s hs _ => splitWithSep_mem_space hsp hs) ?_ c hc
        · intro run hrun c2 hc2
          rw [mergeOut_space hrun] at hc2
          simp at hc2
        · intro s hs hbig c2 _
          apply hbig
          rw [splitWithSep_nil_mem_len hs]
          decide
      · refine splitsLoop_forall (P := fun _ => False)
          (Q := fun g => ∀ x ∈ g, pyIsSpace x = true) _ ?_ _ _
          (by simp) (fun s hs _ => splitWithSep_mem_space hsp hs) ?_ c hc
        · intro run hrun c2 hc2
          rw [mergeOut_space hrun] at hc2
          simp at hc2
        · intro s hs _ c2 hc2
          have he : (chooseSep (s0 :: rest0) text).2.isEmpty = false := by
            simpa [List.isEmpty_iff] using hinv2.1
          rw [he] at hc2
          simp at hc2
          rw [ih _ _ hinv2 (splitWithSep_mem_space hsp hs)] at hc2
          simp at hc2

theorem splitText_space {text : List Char} (h : pyStrip text = []) :
    splitText text = [] :=
  splitTextF_space _ _ _ sepsInv_default ((pyStrip_eq_nil_iff text).mp h)

theorem splitText_len {text : List Char} {c : List Char × Nat}
    (hc : c ∈ splitText text) : c.1.length ≤ CHUNK_SIZE :=
  splitTextF_len _ _ _ sepsInv_default c hc

theorem splitText_ov {text : List Char} {c : List Char × Nat}
    (hc : c ∈ splitText text) : c.2 ≤ CHUNK_OVERLAP :=
  splitTextF_ov _ _ _ c hc

theorem splitText_mem_substr {text : List Char} {c : List Char × Nat}
    (hc : c ∈ splitText text) : c.1 <:+: text :=
  splitTextF_substr _ _ _ c hc

theorem split_documents_space {docs : List Document}
    (h : ∀ d ∈ docs, pyStrip d.content = []) : split_documents docs = [] := by
  unfold split_documents
  rw [List.flatMap_eq_nil_iff]
  intro d hd
  rw [splitText_space (h d hd)]
  rfl

theorem split_documents_mem {docs : List Document} {ch : Chunk}
    (h : ch ∈ split_documents docs) :
    ∃ d ∈ docs, ch.source = d.source ∧ ch.text <:+: d.content ∧
      ch.text.length ≤ CHUNK_SIZE ∧ ch.overlapPrev ≤ CHUNK_OVERLAP := by
  unfold split_documents at h
  rcases List.mem_flatMap.mp h with ⟨d, hd, hch⟩
  rcases List.mem_map.mp hch with ⟨t, ht, rfl⟩
  exact ⟨d, hd, rfl, splitText_mem_substr ht, splitText_len ht, splitText_ov ht⟩

/-! ## File discovery and loading -/

theorem load_documents_spec (ld : Loaders) :
    ∀ paths : List Path,
      load_documents ld paths =
        (paths.flatMap (fun p => match tryLoad ld p with | .ok ds => ds | .error _ => []),
         paths.filterMap
           (fun p => match tryLoad ld p with | .ok _ => none | .error e => some (p, e))) := by
  intro paths
  induction paths with
  | nil => rfl
  | cons p rest ih =>
    rw [load_documents, ih]
    rcases h : tryLoad ld p with e | ds
    · simp [h]
    · simp [h]

theorem find_files_file {fs : FS} {p : Path} (h : isFile fs p = true) :
    find_files fs p = [p] := by
  unfold find_files
  rw [if_pos h]

theorem find_files_dir {fs : FS} {p : Path} (h : isFile fs p = false) (f : Path) :
    f ∈ find_files fs p ↔
      f ∈ fs.files ∧ p <+: f ∧ f ≠ p ∧ lowerSuffix f ∈ extsList := by
  unfold find_files rglobFiles
  rw [if_neg (by simp [h])]
  simp only [List.mem_filter, decide_eq_true_eq]
  tauto

/-! ## Index persistence -/

theorem zip_map_fst_snd {α β : Type} :
    ∀ l : List (α × β), (l.map Prod.fst).zip (l.map Prod.snd) = l := by
  intro l
  induction l with
  | nil => rfl
  | cons x rest ih => simp [ih]

theorem loadLocal_saveLocal (idx : Index) (st : Storage) :
    loadLocal (saveLocal idx st) = .ok idx := by
  unfold loadLocal saveLocal writeFaiss writePkl
  simp [zip_map_fst_snd]

theorem build_or_load_rebuild (embed : List Char → Vec) (chunks : List Chunk)
    (st : Storage) :
    build_or_load_faiss embed chunks true st =
      (.ok (faissFromDocuments embed chunks),
        saveLocal (faissFromDocuments embed chunks) st) := by
  unfold build_or_load_faiss
  simp [loadLocal_saveLocal]

theorem persist_interrupted_mixed (idxOld idxNew : Index) (st : Storage) :
    loadLocal (writeFaiss idxNew (saveLocal idxOld st)) =
      .ok ⟨(idxOld.entries.map Prod.fst).zip (idxNew.entries.map Prod.snd)⟩ := by
  rfl

/-! ## Retrieval lengths -/

theorem insOrd_length (key : α → Int) (x : α) :
    ∀ l : List α, (insOrd key x l).length = l.length + 1 := by
  intro l
  induction l with
  | nil => rfl
  | cons y ys ih =>
    by_cases h : key x < key y
    · simp [insOrd, if_pos h]
    · simp [insOrd, if_neg h, ih]

theorem sortByKey_length (key : α → Int) (l : List α) :
    (sortByKey key l).length = l.length := by
  unfold sortByKey
  suffices h : ∀ (l acc : List α),
      (l.foldl (fun a x => insOrd key x a) acc).length = acc.length + l.length by
    simpa using h l []
  intro l
  induction l with
  | nil => simp
  | cons x xs ih =>
    intro acc
    rw [List.foldl_cons, ih, insOrd_length]
    simp only [List.length_cons]
    omega

theorem searchTopK_length (idx : Index) (q : Vec) (j : Nat) :
    (searchTopK idx q j).length = min j idx.entries.length := by
  unfold searchTopK
  rw [List.length_take, sortByKey_length]

theorem argmaxGo_lt :
    ∀ (scores : List ℚ) (i : Nat) (best : Nat × ℚ), best.1 < i →
      (argmaxGo i scores best).1 < i + scores.length := by
  intro scores
  induction scores with
  | nil =>
    intro i best h
    simpa [argmaxGo] using h
  | cons s rest ih =>
    intro i best h
    by_cases hs : s > best.2
    · rw [argmaxGo, if_pos hs]
      have := ih (i + 1) (i, s) (by simp)
      simpa [Nat.add_assoc, Nat.add_comm 1 rest.length] using this
    · rw [argmaxGo, if_neg hs]
      have := ih (i + 1) best (Nat.lt_succ_of_lt h)
      simpa [Nat.add_assoc, Nat.add_comm 1 rest.length] using this

theorem argmaxFirst_lt {l : List ℚ} {j : Nat} (h : argmaxFirst l = some j) :
    j < l.length := by
  cases l with
  | nil => simp [argmaxFirst] at h
  | cons s rest =>
    rw [argmaxFirst] at h
    simp only [Option.some.injEq] at h
    subst h
    have hb := argmaxGo_lt rest 1 (0, s) Nat.zero_lt_one
    simp only [List.length_cons]
    omega

theorem argmaxFirst_isSome {l : List ℚ} (h : l ≠ []) :
    (argmaxFirst l).isSome := by
  cases l with
  | nil => exact absurd rfl h
  | cons s rest => simp [argmaxFirst]

theorem pickBestGo_sound (idxs : List Nat) :
    ∀ (scores : List ℚ) (i : Nat) (best : Option (Nat × ℚ)),
      (∀ b, best = some b → b.1 ∉ idxs ∧ b.1 < i) →
      ∀ b, pickBestGo idxs i scores best = some b →
        b.1 ∉ idxs ∧ b.1 < i + scores.length := by
  intro scores
  induction scores with
  | nil =>
    intro i best hbest b hb
    rw [pickBestGo] at hb
    have := hbest b hb
    refine ⟨this.1, ?_⟩
    simp only [List.length_nil, Nat.add_zero]
    exact this.2
  | cons sc rest ih =>
    intro i best hbest b hb
    cases best with
    | none =>
      rw [pickBestGo] at hb
      by_cases hcont : idxs.contains i
      · rw [if_pos hcont] at hb
        have := ih (i + 1) none (by simp) b hb
        refine ⟨this.1, ?_⟩
        simp only [List.length_cons]
        omega
      · rw [if_neg hcont] at hb
        have hnotmem : i ∉ idxs := by
          intro hmem
          exact hcont (List.elem_eq_true_of_mem hmem)
        have := ih (i + 1) (some (i, sc))
          (by
            intro b2 h2
            simp only [Option.some.injEq] at h2
            rw [← h2]
            exact ⟨hnotmem, Nat.lt_succ_self i⟩) b hb
        refine ⟨this.1, ?_⟩
        simp only [List.length_cons]
        omega
    | some bb =>
      rw [pickBestGo] at hb
      by_cases hcont : idxs.contains i
      · rw [if_pos hcont] at hb
        have := ih (i + 1) (some bb)
          (fun b2 h2 => by
            simp only [Option.some.injEq] at h2
            rw [← h2]
            exact ⟨(hbest bb rfl).1, Nat.lt_succ_of_lt (hbest bb rfl).2⟩) b hb
        refine ⟨this.1, ?_⟩
        simp only [List.length_cons]
        omega
      · rw [if_neg hcont] at hb
        have hnotmem : i ∉ idxs := by
          intro hmem
          exact hcont (List.elem_eq_true_of_mem hmem)
        by_cases hsc : sc > bb.2
        · rw [if_pos hsc] at hb
          have := ih (i + 1) (some (i, sc))
            (by
              intro b2 h2
              simp only [Option.some.injEq] at h2
              rw [← h2]
              exact ⟨hnotmem, Nat.lt_succ_self i⟩) b hb
          refine ⟨this.1, ?_⟩
          simp only [List.length_cons]
          omega
        · rw [if_neg hsc] at hb
          have := ih (i + 1) (some bb)
            (fun b2 h2 => by
              simp only [Option.some.injEq] at h2
              rw [← h2]
              exact ⟨(hbest bb rfl).1, Nat.lt_succ_of_lt (hbest bb rfl).2⟩) b hb
          refine ⟨this.1, ?_⟩
          simp only [List.length_cons]
          omega

theorem pickBestGo_some_isSome (idxs : List Nat) :
    ∀ (scores : List ℚ) (i : Nat) (b : Nat × ℚ),
      (pickBestGo idxs i scores (some b)).isSome := by
  intro scores
  induction scores with
  | nil =>
    intro i b
    simp [pickBestGo]
  | cons sc rest ih =>
    intro i b
    rw [pickBestGo]
    by_cases hcont : idxs.contains i
    · rw [if_pos hcont]
      exact ih (i + 1) b
    · rw [if_neg hcont]
      by_cases hsc : sc > b.2
      · rw [if_pos hsc]
        exact ih (i + 1) (i, sc)
      · rw [if_neg hsc]
        exact ih (i + 1) b

theorem pickBestGo_isSome (idxs : List Nat) :
    ∀ (scores : List ℚ) (i : Nat) (best : Option (Nat × ℚ)),
      (∃ j, j ∉ idxs ∧ i ≤ j ∧ j < i + scores.length) →
      (pickBestGo idxs i scores best).isSome := by
  intro scores
  induction scores with
  | nil =>
    intro i best hex
    exfalso
    rcases hex with ⟨j, _, h1, h2⟩
    simp only [List.length_nil, Nat.add_zero] at h2
    omega
  | cons sc rest ih =>
    intro i best hex
    cases best with
    | none =>
      rw [pickBestGo]
      by_cases hcont : idxs.contains i
      · rw [if_pos hcont]
        apply ih
        rcases hex with ⟨j, hj1, hj2, hj3⟩
        simp only [List.length_cons] at hj3
        refine ⟨j, hj1, ?_, by omega⟩
        rcases Nat.eq_or_lt_of_le hj2 with rfl | h
        · exact absurd (List.mem_of_elem_eq_true hcont) hj1
        · exact h
      · rw [if_neg hcont]
        exact pickBestGo_some_isSome idxs rest (i + 1) (i, sc)
    | some bb =>
      rw [pickBestGo]
      by_cases hcont : idxs.contains i
      · rw [if_pos hcont]
        exact pickBestGo_some_isSome idxs rest (i + 1) bb
      · rw [if_neg hcont]
        by_cases hsc : sc > bb.2
        · rw [if_pos hsc]
          exact pickBestGo_some_isSome idxs rest (i + 1) (i, sc)
        · rw [if_neg hsc]
          exact pickBestGo_some_isSome idxs rest (i + 1) bb

theorem mmrScores_length (sim : Vec → Vec → ℚ) (lam : ℚ) (simToQuery : List ℚ)
    (embs : List Vec) (idxs : List Nat) :
    (mmrScores sim lam simToQuery embs idxs).length = embs.length := by
  unfold mmrScores
  rw [List.length_map, List.length_range]

theorem pickBest_sound {sim : Vec → Vec → ℚ} {lam : ℚ} {simToQuery : List ℚ}
    {embs : List Vec} {idxs : List Nat} {i : Nat}
    (h : pickBest sim lam simToQuery embs idxs = some i) :
    i ∉ idxs ∧ i < embs.length := by
  unfold pickBest at h
  rcases hb : pickBestGo idxs 0 (mmrScores sim lam simToQuery embs idxs) none with _ | b
  · rw [hb] at h
    simp at h
  · rw [hb] at h
    simp at h
    have := pickBestGo_sound idxs _ 0 none (by simp) b hb
    rw [mmrScores_length] at this
    rw [← h]
    simpa using this

theorem pickBest_isSome (sim : Vec → Vec → ℚ) (lam : ℚ) (simToQuery : List ℚ)
    (embs : List Vec) (idxs : List Nat)
    (hlen : idxs.length < embs.length) :
    (pickBest sim lam simToQuery embs idxs).isSome := by
  unfold pickBest
  have hex : ∃ j, j ∉ idxs ∧ 0 ≤ j ∧
      j < 0 + (mmrScores sim lam simToQuery embs idxs).length := by
    rw [mmrScores_length]
    by_contra hall
    push_neg at hall
    have hsub : List.range embs.length ⊆ idxs := by
      intro j hj
      have hjlt := List.mem_range.mp hj
      by_contra hnot
      have := hall j hnot (Nat.zero_le j)
      omega
    have := (List.subperm_of_subset (List.nodup_range _) hsub).length_le
    rw [List.length_range] at this
    omega
  have h := pickBestGo_isSome idxs _ 0 none hex
  rcases Option.isSome_iff_exists.mp h with ⟨b, hb⟩
  rw [hb]
  rfl

theorem mmrLoop_spec (sim : Vec → Vec → ℚ) (lam : ℚ) (simToQuery : List ℚ)
    (embs : List Vec) :
    ∀ (fuel : Nat) (idxs : List Nat),
      idxs.Nodup → (∀ i ∈ idxs, i < embs.length) →
      idxs.length + fuel ≤ embs.length →
      (mmrLoop sim lam simToQuery embs fuel idxs).length = idxs.length + fuel ∧
        ∀ i ∈ mmrLoop sim lam simToQuery embs fuel idxs, i < embs.length := by
  intro fuel
  induction fuel with
  | zero =>
    intro idxs _ h2 _
    rw [mmrLoop]
    exact ⟨rfl, h2⟩
  | succ fuel ih =>
    intro idxs h1 h2 h3
    rw [mmrLoop]
    have hsome := pickBest_isSome sim lam simToQuery embs idxs (by omega)
    rcases hp : pickBest sim lam simToQuery embs idxs with _ | i
    · rw [hp] at hsome
      simp at hsome
    · have hi := pickBest_sound hp
      have hnodup2 : (idxs ++ [i]).Nodup := by
        rw [List.nodup_append]
        exact ⟨h1, List.nodup_singleton i, by simpa using hi.1⟩
      have h2b : ∀ j ∈ idxs ++ [i], j < embs.length := by
        intro j hj
        rcases List.mem_append.mp hj with hj1 | hj1
        · exact h2 j hj1
        · simp at hj1
          rw [hj1]
          exact hi.2
      have h3b : (idxs ++ [i]).length + fuel ≤ embs.length := by
        simp only [List.length_append, List.length_singleton]
        omega
      have hrec := ih (idxs ++ [i]) hnodup2 h2b h3b
      refine ⟨?_, hrec.2⟩
      rw [hrec.1]
      simp only [List.length_append, List.length_singleton]
      omega

theorem mmr_length (sim : Vec → Vec → ℚ) (lam : ℚ) (q : Vec) (embs : List Vec)
    (k : Nat) :
    (maximalMarginalRelevance sim lam q embs k).length = min k embs.length ∧
      ∀ i ∈ maximalMarginalRelevance sim lam q embs k, i < embs.length := by
  unfold maximalMarginalRelevance
  by_cases h0 : min k embs.length = 0
  · rw [if_pos h0, h0]
    simp
  · rw [if_neg h0]
    have hne : embs.map (fun e => sim q e) ≠ [] := by
      intro hcon
      rw [List.map_eq_nil_iff] at hcon
      rw [hcon] at h0
      simp at h0
    have hs := argmaxFirst_isSome hne
    rcases ha : argmaxFirst (embs.map (fun e => sim q e)) with _ | i0
    · rw [ha] at hs
      simp at hs
    · simp only [ha]
      have hi0 : i0 < embs.length := by
        have := argmaxFirst_lt ha
        simpa using this
      have hrec := mmrLoop_spec sim lam (embs.map (fun e => sim q e)) embs
        (min k embs.length - 1) [i0] (List.nodup_singleton i0)
        (by simpa using hi0)
        (by
          simp only [List.length_singleton]
          omega)
      refine ⟨?_, hrec.2⟩
      rw [hrec.1]
      simp only [List.length_singleton]
      omega

theorem filterMap_getElem_length {α β : Type} (cands : List α) (f : α → β) :
    ∀ sel : List Nat, (∀ i ∈ sel, i < cands.length) →
      (sel.filterMap (fun i => (cands[i]?).map f)).length = sel.length := by
  intro sel
  induction sel with
  | nil =>
    intro _
    rfl
  | cons i rest ih =>
    intro h
    have hi : i < cands.length := h i (by simp)
    have hsome : (fun i => (cands[i]?).map f) i = some (f (cands.get ⟨i, hi⟩)) := by
      simp [List.getElem?_eq_getElem hi]
    simp only [List.filterMap_cons, hsome, List.length_cons]
    rw [ih (fun j hj => h j (by simp [hj]))]

theorem mmrSearch_length (sim : Vec → Vec → ℚ) (idx : Index) (qv : Vec)
    (k fetchK : Nat) :
    (mmrSearch sim idx qv k fetchK).length = min k (min fetchK idx.entries.length) := by
  unfold mmrSearch
  have hsel := mmr_length sim ((1 : ℚ) / 2) qv
    ((searchTopK idx qv fetchK).map (fun e => e.2)) k
  rw [filterMap_getElem_length _ _ _
    (by
      intro i hi
      have := hsel.2 i hi
      rwa [List.length_map] at this)]
  rw [hsel.1, List.length_map, searchTopK_length]

/-! ## Claim theorems -/

/-- C1: if the loaded document set is empty, or every loaded document's
content is empty after whitespace trimming, the `__main__` pipeline fails
with an empty-input error (a `SystemExit` of the empty-input class,
propagated to the caller), and the storage state is unchanged — no index
snapshot is written before the failure. -/
theorem c1_empty_input_fails (fs : FS) (ld : Loaders) (embed : List Char → Vec)
    (sim : Vec → Vec → ℚ) (generate : List Char → Except GenErr (List Char))
    (st : Storage)
    (h : (load_documents ld (find_files fs DOCS_PATH)).1 = [] ∨
      ∀ d ∈ (load_documents ld (find_files fs DOCS_PATH)).1, pyStrip d.content = []) :
    ∃ e, mainPipeline fs ld embed sim generate st = (.error e, st) ∧
      isEmptyInputErr e = true := by
  cases hf : (find_files fs DOCS_PATH).isEmpty with
  | true =>
    refine ⟨.noFilesFound, ?_, rfl⟩
    simp [mainPipeline, hf]
  | false =>
    cases hd : ((load_documents ld (find_files fs DOCS_PATH)).1).isEmpty with
    | true =>
      refine ⟨.noDocsLoaded, ?_, rfl⟩
      simp [mainPipeline, hf, hd]
    | false =>
      have hdocs : (load_documents ld (find_files fs DOCS_PATH)).1 ≠ [] := by
        intro hcon
        rw [hcon] at hd
        simp at hd
      have hall : ∀ d ∈ (load_documents ld (find_files fs DOCS_PATH)).1,
          pyStrip d.content = [] := by
        rcases h with h | h
        · exact absurd h hdocs
        · exact h
      have hchunks : split_documents (load_documents ld (find_files fs DOCS_PATH)).1 = [] :=
        split_documents_space hall
      refine ⟨.noChunksCreated, ?_, rfl⟩
      simp [mainPipeline, hf, hd, hchunks]

/-- Witness for C1 at a concrete filesystem holding one text file whose
content is two spaces: the pipeline exits with an empty-input error and the
storage is untouched. -/
theorem c1_witness :
    ((load_documents ldWhitespace (find_files fsExample DOCS_PATH)).1 = [] ∨
      ∀ d ∈ (load_documents ldWhitespace (find_files fsExample DOCS_PATH)).1,
        pyStrip d.content = []) ∧
    ∃ e, mainPipeline fsExample ldWhitespace (fun _ => [0]) simZero
        (fun _ => .ok ['a']) stEmpty = (.error e, stEmpty) ∧
      isEmptyInputErr e = true :=
  ⟨Or.inr (by decide),
   c1_empty_input_fails fsExample ldWhitespace (fun _ => [0]) simZero
     (fun _ => .ok ['a']) stEmpty (Or.inr (by decide))⟩

/-- C2 counterexample: with the index holding 21 entries and `k = 21`, the
`mmr` retrieval configured by `ask_question` returns 20 results, not
`min(k, size) = 21` — langchain's default `fetch_k = 20` truncates the
candidate pool first. -/
theorem c2_counterexample :
    (mmrSearch simZero idx21 [0] 21 FETCH_K).length ≠ min 21 idx21.entries.length := by
  rw [mmrSearch_length]
  have hn : idx21.entries.length = 21 := by decide
  rw [hn]
  decide

/-- C2 amended: for every similarity function, query vector, index and `k`,
the `mmr` retrieval returns exactly `min(k, FETCH_K, size(index))` results
(`FETCH_K = 20` being langchain's default candidate-pool size), so
`min(k, size)` holds whenever `k ≤ 20` — in particular for the configured
`TOP_K = 4` — and no request, however large `k`, errors. -/
theorem c2_amended (sim : Vec → Vec → ℚ) (qv : Vec) (idx : Index) (k : Nat) :
    (mmrSearch sim idx qv k FETCH_K).length = min k (min FETCH_K idx.entries.length) :=
  mmrSearch_length sim idx qv k FETCH_K

/-- C3 counterexample: the document with content `"a "` yields the single
chunk `"a"` (the splitter strips whitespace), so concatenating chunk texts
while dropping the first `CHUNK_OVERLAP` characters of each later chunk
does not reproduce the original content. -/
theorem c3_counterexample :
    specReconstruct ((split_documents [docA]).map (fun c => c.text)) ≠ docA.content := by
  decide

/-- C3 amended: every chunk the splitter produces from a document carries
that document's source and its text is a contiguous substring of the
document's original content (chunks are windows onto the content, but
whitespace stripping and split-aligned overlaps defeat exact reconstruction
by dropping a fixed `CHUNK_OVERLAP` prefix). -/
theorem c3_amended (docs : List Document) :
    ∀ ch ∈ split_documents docs, ∃ d ∈ docs,
      ch.source = d.source ∧ ch.text <:+: d.content := by
  intro ch hch
  rcases split_documents_mem hch with ⟨d, hd, h1, h2, _, _⟩
  exact ⟨d, hd, h1, h2⟩

/-- Witness for C3's amended theorem at the concrete document `"a "`, whose
single chunk is `"a"`. -/
theorem c3_witness :
    ∃ d ∈ [docA], (⟨"d".toList, ['a'], 0⟩ : Chunk).source = d.source ∧
      (⟨"d".toList, ['a'], 0⟩ : Chunk).text <:+: d.content :=
  c3_amended [docA] ⟨"d".toList, ['a'], 0⟩ (by decide)

/-- C4 counterexample: persisting index B over an existing snapshot of
index A and stopping after the first of the two file writes (`index.faiss`
written, `index.pkl` not yet) leaves a state from which `load_local`
succeeds — but with an index equal to neither A (the prior snapshot is not
intact) nor B: a reader observes a partially written index. -/
theorem c4_counterexample :
    loadLocal (writeFaiss idxB (saveLocal idxA stEmpty)) ≠ .ok idxA ∧
    loadLocal (writeFaiss idxB (saveLocal idxA stEmpty)) ≠ .ok idxB ∧
    ∃ m : Index, loadLocal (writeFaiss idxB (saveLocal idxA stEmpty)) = .ok m := by
  refine ⟨by decide, by decide, ⟨⟨[(⟨['s'], ['a'], 0⟩, [1])]⟩, by decide⟩⟩

/-- C4 amended: `save_local` writes `index.faiss` and then `index.pkl` in
place with no temporary-location-and-rename step, so an interruption between
the two writes leaves storage pairing the prior snapshot's chunk store with
the new vectors; `load_local` then returns that mixture — the prior
snapshot does not remain intact and a reader can observe a partially
written index. -/
theorem c4_amended (idxOld idxNew : Index) (st : Storage) :
    loadLocal (writeFaiss idxNew (saveLocal idxOld st)) =
      .ok ⟨(idxOld.entries.map Prod.fst).zip (idxNew.entries.map Prod.snd)⟩ := rfl

/-- C5: with the rebuild flag set, `build_or_load_faiss` builds the index
from the chunks, persists it, loads the just-persisted snapshot, and
returns the loaded index — which equals the freshly built in-memory index
(the build-persist-load round trip changes nothing). -/
theorem c5_rebuild_round_trip (embed : List Char → Vec) (chunks : List Chunk)
    (st : Storage) :
    build_or_load_faiss embed chunks true st =
      (.ok (faissFromDocuments embed chunks),
        saveLocal (faissFromDocuments embed chunks) st) :=
  build_or_load_rebuild embed chunks st

/-- C6: two build-persist-load-query runs over identical documents, chunk
parameters, embedding and similarity functions produce identical query
results and answers, whatever storage state each run started from (the
rebuild overwrites both snapshot files, so nothing else can influence the
outcome). -/
theorem c6_deterministic (sim : Vec → Vec → ℚ) (embed : List Char → Vec)
    (generate : List Char → Except GenErr (List Char)) (docs : List Document)
    (q : List Char) (st1 st2 : Storage) :
    buildThenQuery sim embed generate docs q st1 =
      buildThenQuery sim embed generate docs q st2 := by
  unfold buildThenQuery
  rw [build_or_load_rebuild, build_or_load_rebuild]

/-- C7: every chunk produced by `split_documents` has text of length at
most `CHUNK_SIZE`, and retains at most `CHUNK_OVERLAP` characters from the
previous chunk's window. -/
theorem c7_chunk_bounds (docs : List Document) :
    ∀ ch ∈ split_documents docs,
      ch.text.length ≤ CHUNK_SIZE ∧ ch.overlapPrev ≤ CHUNK_OVERLAP := by
  intro ch hch
  rcases split_documents_mem hch with ⟨_, _, _, _, h4, h5⟩
  exact ⟨h4, h5⟩

/-- Witness for C7 at the concrete document `"a "` and its chunk `"a"`. -/
theorem c7_witness :
    (⟨"d".toList, ['a'], 0⟩ : Chunk).text.length ≤ CHUNK_SIZE ∧
      (⟨"d".toList, ['a'], 0⟩ : Chunk).overlapPrev ≤ CHUNK_OVERLAP :=
  c7_chunk_bounds [docA] ⟨"d".toList, ['a'], 0⟩ (by decide)

/-- C8 counterexample: when the generation service returns the empty
string, `ask_question` returns that empty string as the answer — it does
not fail with a generation error. -/
theorem c8_counterexample :
    (ask_question simZero (fun _ => [0]) (fun _ => .ok []) idx2 QUESTION).1 =
      .ok [] := rfl

/-- C8 amended: `ask_question` sends exactly one prompt to the generation
service per call and returns that single attempt's outcome unchanged — a
service failure is propagated to the caller (no retry, no default answer),
but an empty string is likewise passed through as the answer rather than
converted into an error. -/
theorem c8_amended (sim : Vec → Vec → ℚ) (embed : List Char → Vec)
    (generate : List Char → Except GenErr (List Char)) (vs : Index)
    (q : List Char) :
    ∃ p, (ask_question sim embed generate vs q).2 = [p] ∧
      (ask_question sim embed generate vs q).1 = generate p :=
  ⟨buildPrompt (mmrSearch sim vs (embed q) TOP_K FETCH_K) q, rfl, rfl⟩

/-- C9: `load_documents` is total — per-path loader failures are caught,
recorded as warnings, and skipped, with loading continuing over the
remaining paths: the documents are exactly the concatenated successful
loads and the warnings exactly the failures, in path order (so the result
can be empty even for a non-empty path list, when every load fails). -/
theorem c9_load_documents_total (ld : Loaders) (paths : List Path) :
    load_documents ld paths =
      (paths.flatMap (fun p => match tryLoad ld p with | .ok ds => ds | .error _ => []),
       paths.filterMap
         (fun p => match tryLoad ld p with | .ok _ => none | .error e => some (p, e))) :=
  load_documents_spec ld paths

/-- C10: `find_files` returns an existing file path as a singleton without
any extension check; for a non-file path it returns exactly the listed
regular files strictly below it whose lowered suffix is in the allow-list. -/
theorem c10_find_files_spec (fs : FS) (p : Path) :
    (isFile fs p = true → find_files fs p = [p]) ∧
    (isFile fs p = false → ∀ f : Path,
      f ∈ find_files fs p ↔
        f ∈ fs.files ∧ p <+: f ∧ f ≠ p ∧ lowerSuffix f ∈ extsList) :=
  ⟨fun h => find_files_file h, fun h f => find_files_dir h f⟩

/-- Witness for C10: a `.xyz` file is returned as-is (extension ignored for
existing files), and the directory branch's membership characterisation at
a concrete file. -/
theorem c10_witness :
    find_files fsExample ["weird.xyz".toList] = [["weird.xyz".toList]] ∧
    (["my_docs".toList, "notes.TXT".toList] ∈ find_files fsExample DOCS_PATH ↔
      ["my_docs".toList, "notes.TXT".toList] ∈ fsExample.files ∧
        DOCS_PATH <+: ["my_docs".toList, "notes.TXT".toList] ∧
        ["my_docs".toList, "notes.TXT".toList] ≠ DOCS_PATH ∧
        lowerSuffix ["my_docs".toList, "notes.TXT".toList] ∈ extsList) :=
  ⟨(c10_find_files_spec fsExample ["weird.xyz".toList]).1 (by decide),
   (c10_find_files_spec fsExample DOCS_PATH).2 (by decide) _⟩

end Rag
